import Mathlib

/-!
# Verification of the SteamWishlistCalendar release-date resolution engine

Shallow embedding of `src/swc.py` (the fuzzy release-date resolution
pipeline): calendar-date arithmetic (`last_day_of_next_month`), the
lexical normalization of release strings (lowercasing, block-list check,
idiom substitution, strip, bare-year expansion), the future-date
correction loop, per-entry outcome classification, and the history
upsert.  Text is modelled as `List Char` (Python `str`); Python
`datetime` values are modelled at calendar-day granularity as `Date`
(every comparison the script performs on dates is either already at
`.date()` granularity or, for the bare-year sentinel at midnight,
equivalent to the day-level comparison).  The external natural-language
date parser (`dateparser.parse`) is a parameter of the pipeline; concrete
instantiations used in witnesses parse exact `YYYY-MM-DD` strings.
-/

namespace SWC

/-- A calendar date (year, month, day), modelling Python `datetime.date`
and `datetime.datetime` at day granularity. -/
structure Date where
  year : Nat
  month : Nat
  day : Nat
deriving DecidableEq, Repr

/-- Lexicographic strict order on dates: exactly Python's `<` on
`datetime.date` values. -/
def Date.lt (a b : Date) : Prop :=
  a.year < b.year ∨ (a.year = b.year ∧
    (a.month < b.month ∨ (a.month = b.month ∧ a.day < b.day)))

instance (a b : Date) : Decidable (Date.lt a b) := by
  unfold Date.lt; exact inferInstance

/-- Gregorian leap-year rule, as used by Python's `datetime`. -/
def isLeapYear (y : Nat) : Bool :=
  (y % 4 == 0 && y % 100 != 0) || y % 400 == 0

/-- Number of days in month `m` of year `y` (Python `calendar` rule). -/
def monthLength (y m : Nat) : Nat :=
  if m = 2 then (if isLeapYear y then 29 else 28)
  else if m = 4 ∨ m = 6 ∨ m = 9 ∨ m = 11 then 30 else 31

/-- The previous calendar day, modelling `dt - timedelta(days=1)` at day
granularity. -/
def predDate (dt : Date) : Date :=
  if dt.day > 1 then ⟨dt.year, dt.month, dt.day - 1⟩
  else if dt.month > 1 then ⟨dt.year, dt.month - 1, monthLength dt.year (dt.month - 1)⟩
  else ⟨dt.year - 1, 12, 31⟩

/-- `last_day_of_next_month` from `src/swc.py` lines 42-60: month index
`dt.month + 2`, wrapped into the following year when it exceeds 12; the
first day of that month, minus one day. -/
def last_day_of_next_month (dt : Date) : Date :=
  let year := dt.year
  let next_next_month := dt.month + 2
  let p : Nat × Nat :=
    if next_next_month > 12 then (next_next_month - 12, dt.year + 1)
    else (next_next_month, year)
  predDate ⟨p.2, p.1, 1⟩

/-- The month of the date is a real calendar month; Python `datetime`
values satisfy this by construction. -/
def validMonth (d : Date) : Prop := 1 ≤ d.month ∧ d.month ≤ 12

/-- Modelled from the spec (§4.5 description of the advance step's
result): the last calendar day of the month immediately following the
given date's month, wrapping into January of the next year after
December. -/
def lastDayOfMonthAfter (dt : Date) : Date :=
  if dt.month = 12 then ⟨dt.year + 1, 1, monthLength (dt.year + 1) 1⟩
  else ⟨dt.year, dt.month + 1, monthLength dt.year (dt.month + 1)⟩

theorem last_day_eq_monthAfter (d : Date) (h1 : 1 ≤ d.month) (h2 : d.month ≤ 12) :
    last_day_of_next_month d = lastDayOfMonthAfter d := by
  obtain ⟨y, m, dd⟩ := d
  simp only at h1 h2
  unfold last_day_of_next_month lastDayOfMonthAfter predDate monthLength
  interval_cases m <;> simp

/-- The advance step strictly increases the date (the result lies in the
month after the input's month). -/
theorem lt_last_day (d : Date) (h1 : 1 ≤ d.month) (h2 : d.month ≤ 12) :
    Date.lt d (last_day_of_next_month d) := by
  rw [last_day_eq_monthAfter d h1 h2]
  unfold lastDayOfMonthAfter Date.lt
  by_cases h : d.month = 12 <;> simp [h]

theorem validMonth_last_day (d : Date) (h1 : 1 ≤ d.month) (h2 : d.month ≤ 12) :
    validMonth (last_day_of_next_month d) := by
  rw [last_day_eq_monthAfter d h1 h2]
  unfold lastDayOfMonthAfter validMonth
  by_cases h : d.month = 12
  · simp [h]
  · simp [h]
    omega

/-- The result of the advance step is the last day of its own month. -/
def isLastDayOfMonth (d : Date) : Prop :=
  1 ≤ d.month ∧ d.month ≤ 12 ∧ d.day = monthLength d.year d.month

theorem last_day_isLastDay (d : Date) (h1 : 1 ≤ d.month) (h2 : d.month ≤ 12) :
    isLastDayOfMonth (last_day_of_next_month d) := by
  rw [last_day_eq_monthAfter d h1 h2]
  unfold lastDayOfMonthAfter isLastDayOfMonth
  by_cases h : d.month = 12
  · simp [h]
  · simp [h]
    omega

/-- Linear month index; the loop measure of the correction loop. -/
def monthIdx (d : Date) : Nat := d.year * 12 + d.month

theorem monthIdx_last_day (d : Date) (h1 : 1 ≤ d.month) (h2 : d.month ≤ 12) :
    monthIdx (last_day_of_next_month d) = monthIdx d + 1 := by
  rw [last_day_eq_monthAfter d h1 h2]
  unfold lastDayOfMonthAfter monthIdx
  by_cases h : d.month = 12 <;> simp [h] <;> omega

theorem monthIdx_le_of_lt (d now : Date) (h2 : d.month ≤ 12) (h : Date.lt d now) :
    monthIdx d ≤ monthIdx now := by
  unfold Date.lt at h
  unfold monthIdx
  rcases h with h | ⟨he, h⟩
  · nlinarith
  · omega

theorem date_lt_trans (a b c : Date) (h1 : Date.lt a b) (h2 : Date.lt b c) :
    Date.lt a c := by
  unfold Date.lt at *
  omega

/-- The future-date correction loop of `src/swc.py` lines 272-275 --
`while ... release_date.date() < now.date(): release_date =
last_day_of_next_month(release_date)` -- written with explicit fuel.
`correct` supplies fuel that is proved sufficient below
(`correct_not_lt_now`), so `correct` computes exactly the loop's result
on every date a Python `datetime` can represent. -/
def correctFuel (now : Date) : Nat → Date → Date
  | 0, d => d
  | n + 1, d =>
    if Date.lt d now then correctFuel now n (last_day_of_next_month d) else d

/-- The corrected release date: the value of `release_date` after the
while-loop on lines 272-275 exits (for a pre-release entry). -/
def correct (now d : Date) : Date :=
  correctFuel now (monthIdx now + 1 - monthIdx d) d

theorem correctFuel_succ (now d : Date) (n : Nat) :
    correctFuel now (n + 1) d =
      if Date.lt d now then correctFuel now n (last_day_of_next_month d) else d := rfl

theorem correctFuel_of_not_lt (now d : Date) (n : Nat) (h : ¬ Date.lt d now) :
    correctFuel now n d = d := by
  cases n with
  | zero => rfl
  | succ n => rw [correctFuel_succ]; simp [h]

theorem correctFuel_spec (now : Date) :
    ∀ n d, validMonth d → monthIdx now + 1 - monthIdx d ≤ n →
      ¬ Date.lt (correctFuel now n d) now ∧ validMonth (correctFuel now n d) ∧
        (Date.lt d now → isLastDayOfMonth (correctFuel now n d)) := by
  intro n
  induction n with
  | zero =>
    intro d hv hb
    have hnl : ¬ Date.lt d now := by
      intro hl
      have := monthIdx_le_of_lt d now hv.2 hl
      omega
    exact ⟨hnl, hv, fun hl => absurd hl hnl⟩
  | succ n ih =>
    intro d hv hb
    by_cases hl : Date.lt d now
    · have hstep : correctFuel now (n + 1) d = correctFuel now n (last_day_of_next_month d) := by
        rw [correctFuel_succ]; simp [hl]
      have hv' := validMonth_last_day d hv.1 hv.2
      have hidx := monthIdx_last_day d hv.1 hv.2
      have hle := monthIdx_le_of_lt d now hv.2 hl
      have hb' : monthIdx now + 1 - monthIdx (last_day_of_next_month d) ≤ n := by omega
      obtain ⟨h1, h2, _⟩ := ih (last_day_of_next_month d) hv' hb'
      refine ⟨hstep ▸ h1, hstep ▸ h2, fun _ => ?_⟩
      rw [hstep]
      by_cases hl' : Date.lt (last_day_of_next_month d) now
      · exact (ih (last_day_of_next_month d) hv' hb').2.2 hl'
      · rw [correctFuel_of_not_lt now _ n hl']
        exact last_day_isLastDay d hv.1 hv.2
    · rw [correctFuel_of_not_lt now d (n + 1) hl]
      exact ⟨hl, hv, fun h => absurd h hl⟩

/-- The loop exits with a date that is on or after `now`'s calendar
day. -/
theorem correct_not_lt_now (now d : Date) (hv : validMonth d) :
    ¬ Date.lt (correct now d) now :=
  (correctFuel_spec now _ d hv (le_refl _)).1

theorem correct_isLastDay (now d : Date) (hv : validMonth d) (hl : Date.lt d now) :
    isLastDayOfMonth (correct now d) :=
  (correctFuel_spec now _ d hv (le_refl _)).2.2 hl

/-- When the candidate is already on or after `now`, the loop body never
runs: the date is returned unchanged. -/
theorem correct_of_not_lt (now d : Date) (h : ¬ Date.lt d now) :
    correct now d = d :=
  correctFuel_of_not_lt now d _ h

/-- `correct` satisfies the loop's defining equation, so it is the
while-loop of lines 272-275. -/
theorem correct_eq_loop (now d : Date) (hv : validMonth d) :
    correct now d =
      if Date.lt d now then correct now (last_day_of_next_month d) else d := by
  by_cases hl : Date.lt d now
  · simp only [hl, if_true]
    unfold correct
    have hidx := monthIdx_last_day d hv.1 hv.2
    have hle := monthIdx_le_of_lt d now hv.2 hl
    have hfuel : monthIdx now + 1 - monthIdx d =
        (monthIdx now + 1 - monthIdx (last_day_of_next_month d)) + 1 := by omega
    rw [hfuel, correctFuel_succ]
    simp [hl]
  · simp only [hl, if_false]
    exact correct_of_not_lt now d hl

/-- `correctFuel` never moves the date backwards. -/
theorem correctFuel_ge (now : Date) :
    ∀ n d, validMonth d →
      correctFuel now n d = d ∨ Date.lt d (correctFuel now n d) := by
  intro n
  induction n with
  | zero => intro d _; exact Or.inl rfl
  | succ n ih =>
    intro d hv
    by_cases hl : Date.lt d now
    · have hstep : correctFuel now (n + 1) d = correctFuel now n (last_day_of_next_month d) := by
        rw [correctFuel_succ]; simp [hl]
      rw [hstep]
      have hlt := lt_last_day d hv.1 hv.2
      rcases ih (last_day_of_next_month d) (validMonth_last_day d hv.1 hv.2) with h | h
      · rw [h]; exact Or.inr hlt
      · exact Or.inr (date_lt_trans _ _ _ hlt h)
    · rw [correctFuel_of_not_lt now d (n + 1) hl]
      exact Or.inl rfl

/-- A past candidate is strictly advanced by the loop. -/
theorem lt_correct_of_lt (now d : Date) (hv : validMonth d) (hl : Date.lt d now) :
    Date.lt d (correct now d) := by
  rw [correct_eq_loop now d hv]
  simp only [hl, if_true]
  have hlt := lt_last_day d hv.1 hv.2
  rcases correctFuel_ge now _ (last_day_of_next_month d)
      (validMonth_last_day d hv.1 hv.2) with h | h
  · unfold correct
    rw [h]
    exact hlt
  · exact date_lt_trans _ _ _ hlt h

/-! ## Release strings and the lexical pipeline -/

/-- Python `str` is modelled as a list of characters. -/
abbrev Str := List Char

/-- `value.release_string.lower()`.  `Char.toLower` lowercases the ASCII
range; the block list and substitution table are caseless outside ASCII,
so this matches Python `str.lower` on every string the tables can
match. -/
def lowerChars (s : Str) : Str := s.map Char.toLower

/-- `pat` is an initial segment of `s`. -/
def startsWithChars : Str → Str → Bool
  | [], _ => true
  | _ :: _, [] => false
  | p :: ps, c :: cs => p == c && startsWithChars ps cs

/-- Python's `pat in s`: substring containment. -/
def containsSub (pat : Str) : Str → Bool
  | [] => pat.isEmpty
  | c :: rest => startsWithChars pat (c :: rest) || containsSub pat rest

/-- `_BLOCK_LIST` from `src/swc.py` line 33. -/
def _BLOCK_LIST : List Str :=
  ["tbd".toList, "tba".toList, "to be announced".toList,
   "when it's done".toList, "when it's ready".toList,
   "即将推出".toList, "即将宣布".toList, "coming soon".toList]

/-- `any(substring in release_string for substring in _BLOCK_LIST)`
(line 248). -/
def blockHit (s : Str) : Bool := _BLOCK_LIST.any fun p => containsSub p s

/-- Python `str.replace(old, new)`: scan left to right, replace each
non-overlapping occurrence of `old` by `new`, resuming the scan after
the replaced text.  (All patterns in `_TO_REPLACE` are non-empty; an
empty `old` is returned unchanged here, which the script never relies
on.) -/
def replaceCharsF (old new : Str) : Nat → Str → Str
  | 0, s => s
  | n + 1, s =>
    match s with
    | [] => []
    | c :: rest =>
      if old ≠ [] ∧ startsWithChars old (c :: rest) = true then
        new ++ replaceCharsF old new n (List.drop (old.length - 1) rest)
      else c :: replaceCharsF old new n rest

def replaceChars (old new s : Str) : Str := replaceCharsF old new s.length s

/-- `_TO_REPLACE` from `src/swc.py` lines 34-39, in source order. -/
def _TO_REPLACE : List (Str × Str) :=
  [("spring".toList, "mar".toList), ("summer".toList, "june".toList),
   ("fall".toList, "sep".toList), ("winter".toList, "dec".toList),
   ("q1".toList, "feb".toList), ("q2".toList, "may".toList),
   ("q3".toList, "aug".toList), ("q4".toList, "nov".toList),
   ("第一季度".toList, "feb".toList), ("第二季度".toList, "may".toList),
   ("第三季度".toList, "aug".toList), ("第四季度".toList, "nov".toList),
   ("年".toList, ".".toList), ("月".toList, ".".toList),
   ("日".toList, ".".toList), ("号".toList, ".".toList)]

/-- Lines 253-254: `for old, new in _TO_REPLACE: release_string =
release_string.replace(old, new)`. -/
def applySubs (s : Str) : Str :=
  _TO_REPLACE.foldl (fun acc p => replaceChars p.1 p.2 acc) s

/-- Python `str.strip()` (line 256): drop whitespace from both ends. -/
def stripChars (s : Str) : Str :=
  ((s.dropWhile Char.isWhitespace).reverse.dropWhile Char.isWhitespace).reverse

/-- `re.match('^(\d{4}) \.$', s)` (lines 31 and 257): the whole string is
four digits, a space and a period; on success the first capture group --
the four digit characters -- is returned. -/
def yearOnlyMatch : Str → Option Str
  | a :: b :: c :: d :: e :: f :: [] =>
    if a.isDigit && b.isDigit && c.isDigit && d.isDigit && e == ' ' && f == '.' then
      some [a, b, c, d]
    else none
  | _ => none

/-- Numeric value of a digit string (how `strptime('%Y')` reads the
captured year). -/
def yearVal (l : Str) : Nat := l.foldl (fun n c => n * 10 + (c.toNat - 48)) 0

/-- Lines 257-263: when the string is year-only, expand it.  The sentinel
`datetime(year, 9, 15)` is at midnight UTC, so `sep_release_date > now`
holds exactly when the sentinel's calendar day is after `now`'s calendar
day; the comparison is therefore taken at `Date` granularity. -/
def bareYearExpand (now : Date) (s : Str) : Str :=
  match yearOnlyMatch s with
  | some ys =>
    let y := yearVal ys
    if Date.lt now ⟨y, 9, 15⟩ then ys ++ "-09-15".toList else ys ++ "-12-31".toList
  | none => s

/-- The whole lexical pipeline applied to a raw release string after the
block-list check: substitutions (lines 253-254), strip (line 256),
bare-year expansion (lines 257-263).  The input is already lowercased. -/
def normalizeLowered (now : Date) (s : Str) : Str :=
  bareYearExpand now (stripChars (applySubs s))

/-! ## Per-entry processing -/

/-- The fields of the `GameDetails` namedtuple (line 84) that the
processing loop reads. -/
structure GameDetails where
  name : Str
  type_ : Str
  release_string : Str
  short_description : Str
  prerelease : Bool
deriving DecidableEq, Repr

/-- The resolution outcome of one wishlist entry in the processing loop
(lines 240-293): skipped by the block-list check (line 250), skipped by
parse failure (line 279), or carrying the final `release_date`. -/
inductive Outcome where
  | blocked
  | unresolved
  | resolved (d : Date)
deriving DecidableEq, Repr

/-- One iteration of the processing loop, lines 240-284, without the
event/report bookkeeping: lowercase, block-list short-circuit,
substitutions, strip, bare-year expansion, parse, future-date
correction (for pre-release entries only).  `dateparse` is the external
`dateparser.parse` collaborator with the run's parser settings.  (The
`if not release_date` check on line 281 is dead: a parsed `datetime` is
always truthy.) -/
def processEntry (dateparse : Str → Option Date) (now : Date) (v : GameDetails) :
    Outcome :=
  let rs := lowerChars v.release_string
  if blockHit rs then .blocked
  else
    match dateparse (normalizeLowered now rs) with
    | none => .unresolved
    | some d => .resolved (if v.prerelease then correct now d else d)

/-- Outcomes of the whole batch, in wishlist order. -/
def outcomes (dateparse : Str → Option Date) (now : Date)
    (ws : List (Nat × GameDetails)) : List Outcome :=
  ws.map fun p => processEntry dateparse now p.2

/-- `successful_deductions` (line 284): name and final date of every
entry whose string parsed. -/
def successes (dateparse : Str → Option Date) (now : Date)
    (ws : List (Nat × GameDetails)) : List (Str × Date) :=
  ws.filterMap fun p =>
    match processEntry dateparse now p.2 with
    | .resolved d => some (p.2.name, d)
    | _ => none

/-- A calendar event as emitted on lines 288-293 (uid, summary, all-day
begin date). -/
structure CalEvent where
  uid : Nat
  summary : Str
  begin_ : Date
deriving DecidableEq, Repr

/-- The events appended to the calendar (lines 285-293): resolved
entries, with DLC filtered out unless `include_dlc` is set. -/
def events (dateparse : Str → Option Date) (now : Date) (includeDlc : Bool)
    (ws : List (Nat × GameDetails)) : List CalEvent :=
  ws.filterMap fun p =>
    match processEntry dateparse now p.2 with
    | .resolved d =>
      if p.2.type_ == "dlc".toList && !includeDlc then none
      else some ⟨p.1, p.2.name, d⟩
    | _ => none

/-- `prerelease_count` (lines 213, 244-245): incremented for every entry
with `prerelease` set, before the block-list check. -/
def prereleaseCount (ws : List (Nat × GameDetails)) : Nat :=
  (ws.filter fun p => p.2.prerelease).length

/-! ## Machine-readable timestamps (`GetItems` API, lines 175-191) -/

/-- The decimal digit character of `n % 10`. -/
def digitChar (n : Nat) : Char := Char.ofNat (48 + n % 10)

/-- Two-digit zero-padded rendering (`%m`, `%d`). -/
def pad2 (n : Nat) : Str := [digitChar (n / 10), digitChar n]

/-- Four-digit zero-padded rendering (`%Y` for years up to 9999). -/
def pad4 (n : Nat) : Str :=
  [digitChar (n / 1000), digitChar (n / 100), digitChar (n / 10), digitChar n]

/-- `datetime.strftime('%Y-%m-%d')` of a date with a four-digit year. -/
def isoFormat (d : Date) : Str :=
  pad4 d.year ++ '-' :: (pad2 d.month ++ '-' :: pad2 d.day)

/-- Lines 184-188: the `release_string` handed to the processing loop --
the formatted UTC calendar day of `steam_release_date` when that
timestamp is positive, otherwise the free-form
`custom_release_date_message`.  The positive timestamp is abstracted to
the `Date` it denotes. -/
def release_string_of (steam_release_date : Option Date)
    (custom_release_date_message : Str) : Str :=
  match steam_release_date with
  | some dt => isoFormat dt
  | none => custom_release_date_message

/-! ## Character-level lemmas: the pipeline is inert on ISO date text -/

/-- The characters that can occur in `isoFormat` output. -/
def isoCharList : Str := ['0', '1', '2', '3', '4', '5', '6', '7', '8', '9', '-']

theorem digitChar_mem_iso (n : Nat) : digitChar n ∈ isoCharList := by
  unfold digitChar
  have h : n % 10 < 10 := Nat.mod_lt _ (by omega)
  set j := n % 10 with hj
  interval_cases j <;> decide

theorem mem_isoFormat (d : Date) (c : Char) (h : c ∈ isoFormat d) :
    c ∈ isoCharList := by
  unfold isoFormat pad4 pad2 at h
  simp only [List.cons_append, List.nil_append, List.mem_cons, List.not_mem_nil] at h
  rcases h with h | h | h | h | h | h | h | h | h | h | h
  all_goals first
    | (subst h; first | exact digitChar_mem_iso _ | decide)
    | exact absurd h (by simp)

theorem iso_chars_inert :
    ∀ c ∈ isoCharList, Char.toLower c = c ∧ c.isWhitespace = false := by decide

theorem startsWithChars_mem (pat s : Str) (h : startsWithChars pat s = true) :
    ∀ x ∈ pat, x ∈ s := by
  induction pat generalizing s with
  | nil => intro x hx; exact absurd hx (List.not_mem_nil x)
  | cons p ps ih =>
    cases s with
    | nil => exact absurd h (by simp [startsWithChars])
    | cons c cs =>
      unfold startsWithChars at h
      rw [Bool.and_eq_true, beq_iff_eq] at h
      intro x hx
      rcases List.mem_cons.mp hx with rfl | hx
      · exact h.1 ▸ List.mem_cons_self _ _
      · exact List.mem_cons_of_mem _ (ih cs h.2 x hx)

theorem containsSub_eq_false (pat s : Str) (x : Char) (hx : x ∈ pat) (hs : x ∉ s) :
    containsSub pat s = false := by
  induction s with
  | nil =>
    unfold containsSub
    rcases pat with _ | ⟨p, ps⟩
    · exact absurd hx (List.not_mem_nil x)
    · rfl
  | cons c rest ih =>
    unfold containsSub
    rw [Bool.or_eq_false_iff]
    constructor
    · by_cases h : startsWithChars pat (c :: rest) = true
      · exact absurd (startsWithChars_mem pat _ h x hx) hs
      · exact Bool.not_eq_true _ ▸ h
    · exact ih (fun h => hs (List.mem_cons_of_mem _ h))

theorem replaceCharsF_succ_cons (old new : Str) (n : Nat) (c : Char) (rest : Str) :
    replaceCharsF old new (n + 1) (c :: rest) =
      if old ≠ [] ∧ startsWithChars old (c :: rest) = true then
        new ++ replaceCharsF old new n (List.drop (old.length - 1) rest)
      else c :: replaceCharsF old new n rest := rfl

theorem replaceCharsF_eq_self (old new : Str) (x : Char) (hx : x ∈ old) :
    ∀ n s, x ∉ s → replaceCharsF old new n s = s := by
  intro n
  induction n with
  | zero => intro s _; rfl
  | succ n ih =>
    intro s hs
    cases s with
    | nil => rfl
    | cons c rest =>
      have hnotpre : ¬ (old ≠ [] ∧ startsWithChars old (c :: rest) = true) := by
        rintro ⟨-, hpre⟩
        exact hs (startsWithChars_mem old _ hpre x hx)
      rw [replaceCharsF_succ_cons, if_neg hnotpre,
        ih rest (fun h => hs (List.mem_cons_of_mem _ h))]

theorem replaceChars_eq_self (old new s : Str) (x : Char) (hx : x ∈ old)
    (hs : x ∉ s) : replaceChars old new s = s :=
  replaceCharsF_eq_self old new x hx s.length s hs

theorem applySubs_of_inert (s : Str)
    (h : ∀ p ∈ _TO_REPLACE, replaceChars p.1 p.2 s = s) : applySubs s = s := by
  unfold applySubs
  generalize _TO_REPLACE = l at h ⊢
  induction l with
  | nil => rfl
  | cons p l ih =>
    rw [List.foldl_cons, h p (List.mem_cons_self _ _)]
    exact ih (fun q hq => h q (List.mem_cons_of_mem _ hq))

theorem dropWhile_eq_self (p : Char → Bool) (s : Str)
    (h : ∀ c ∈ s, p c = false) : s.dropWhile p = s := by
  cases s with
  | nil => rfl
  | cons c rest =>
    rw [List.dropWhile_cons, h c (List.mem_cons_self _ _)]
    simp

theorem stripChars_eq_self (s : Str) (h : ∀ c ∈ s, c.isWhitespace = false) :
    stripChars s = s := by
  unfold stripChars
  rw [dropWhile_eq_self _ s h, dropWhile_eq_self, List.reverse_reverse]
  intro c hc
  exact h c (List.mem_reverse.mp hc)

theorem lowerChars_of_inert (s : Str) (h : ∀ c ∈ s, Char.toLower c = c) :
    lowerChars s = s := by
  unfold lowerChars
  induction s with
  | nil => rfl
  | cons c rest ih =>
    rw [List.map_cons, h c (List.mem_cons_self _ _),
      ih (fun x hx => h x (List.mem_cons_of_mem _ hx))]

theorem yearOnlyMatch_isoFormat (d : Date) : yearOnlyMatch (isoFormat d) = none := rfl

/-- Every block-list idiom contains a character that cannot occur in an
ISO date string. -/
theorem block_list_has_alien : ∀ p ∈ _BLOCK_LIST, ∃ x ∈ p, x ∉ isoCharList := by
  decide

/-- Every substitution pattern contains a character that cannot occur in
an ISO date string. -/
theorem to_replace_has_alien : ∀ p ∈ _TO_REPLACE, ∃ x ∈ p.1, x ∉ isoCharList := by
  decide

theorem blockHit_iso (s : Str) (hsub : ∀ c ∈ s, c ∈ isoCharList) :
    blockHit s = false := by
  unfold blockHit
  rw [List.any_eq_false]
  intro p hp
  obtain ⟨x, hx, hxno⟩ := block_list_has_alien p hp
  rw [containsSub_eq_false p s x hx (fun h => hxno (hsub x h))]
  simp

theorem applySubs_iso (s : Str) (hsub : ∀ c ∈ s, c ∈ isoCharList) :
    applySubs s = s := by
  refine applySubs_of_inert s (fun p hp => ?_)
  obtain ⟨x, hx, hxno⟩ := to_replace_has_alien p hp
  exact replaceChars_eq_self p.1 p.2 s x hx (fun h => hxno (hsub x h))

theorem lowerChars_isoFormat (d : Date) : lowerChars (isoFormat d) = isoFormat d :=
  lowerChars_of_inert _
    (fun c hc => (iso_chars_inert c (mem_isoFormat d c hc)).1)

theorem blockHit_isoFormat (d : Date) : blockHit (isoFormat d) = false :=
  blockHit_iso _ (mem_isoFormat d)

/-- The normalization pipeline leaves an ISO `YYYY-MM-DD` string
untouched. -/
theorem normalize_isoFormat (now : Date) (d : Date) :
    normalizeLowered now (isoFormat d) = isoFormat d := by
  have hsub : ∀ c ∈ isoFormat d, c ∈ isoCharList := mem_isoFormat d
  unfold normalizeLowered
  rw [applySubs_iso _ hsub,
    stripChars_eq_self _ (fun c hc => (iso_chars_inert c (hsub c hc)).2)]
  unfold bareYearExpand
  rw [yearOnlyMatch_isoFormat]

/-! ## Substring lemmas for the block-list containment claim -/

theorem startsWithChars_cons (p c : Char) (ps cs : Str) :
    startsWithChars (p :: ps) (c :: cs) = (p == c && startsWithChars ps cs) := rfl

theorem containsSub_cons (pat : Str) (c : Char) (rest : Str) :
    containsSub pat (c :: rest) =
      (startsWithChars pat (c :: rest) || containsSub pat rest) := rfl

theorem startsWithChars_append_self (pat y : Str) :
    startsWithChars pat (pat ++ y) = true := by
  induction pat with
  | nil => rfl
  | cons p ps ih =>
    rw [List.cons_append, startsWithChars_cons, ih, beq_self_eq_true, Bool.and_true]

theorem containsSub_append_left (pat x s : Str) (h : containsSub pat s = true) :
    containsSub pat (x ++ s) = true := by
  induction x with
  | nil => exact h
  | cons c x ih =>
    rw [List.cons_append, containsSub_cons, ih, Bool.or_true]

theorem containsSub_self_append (pat y : Str) (h : pat ≠ []) :
    containsSub pat (pat ++ y) = true := by
  cases pat with
  | nil => exact absurd rfl h
  | cons p ps =>
    rw [List.cons_append, containsSub_cons, ← List.cons_append,
      startsWithChars_append_self, Bool.true_or]

/-! ## Pending-count bound -/

theorem prereleaseCount_le (appids : List Nat) (ws : List (Nat × GameDetails))
    (hnd : (ws.map Prod.fst).Nodup) (hsub : ∀ p ∈ ws, p.1 ∈ appids) :
    prereleaseCount ws ≤ appids.length := by
  have h1 : prereleaseCount ws ≤ ws.length := List.length_filter_le _ _
  have h2 : (ws.map Prod.fst).length = ws.length := List.length_map _ _
  have h3 : (ws.map Prod.fst).length ≤ appids.length := by
    calc (ws.map Prod.fst).length = (ws.map Prod.fst).toFinset.card :=
          (List.toFinset_card_of_nodup hnd).symm
      _ ≤ appids.toFinset.card := Finset.card_le_card (fun x hx => by
          rw [List.mem_toFinset] at *
          obtain ⟨p, hp, rfl⟩ := List.mem_map.mp hx
          exact hsub p hp)
      _ ≤ appids.length := appids.toFinset_card_le
  omega

/-! ## A concrete instantiation of the external date parser -/

/-- A concrete stand-in for `dateparser.parse` used in closed witnesses:
it resolves exactly the fully-specified `YYYY-MM-DD` strings the
pipeline produces in those witnesses, per the §4.4 parser contract, and
fails on everything else. -/
def isoParser : Str → Option Date
  | a :: b :: c :: d :: '-' :: e :: f :: '-' :: g :: h :: [] =>
    if a.isDigit && b.isDigit && c.isDigit && d.isDigit && e.isDigit &&
        f.isDigit && g.isDigit && h.isDigit then
      some ⟨yearVal [a, b, c, d], yearVal [e, f], yearVal [g, h]⟩
    else none
  | _ => none

/-! ## History persistence (lines 326-334) -/

/-- The JSON object written per day:
`{_PRERELEASE: prerelease_count, _TOTAL: len(wishlist_appids)}`. -/
structure HistSample where
  prerelease : Nat
  total : Nat
deriving DecidableEq, Repr

/-- The loaded `history.json` object, as an insertion-ordered key/value
list -- exactly a Python `dict` with string keys, whose keys are
pairwise distinct. -/
abbrev HistMap := List (Str × HistSample)

/-- Python `data[k] = v` (line 332): overwrite the value in place when
the key is present (a `dict` holds at most one entry per key), append at
the end otherwise. -/
def dictSet : HistMap → Str → HistSample → HistMap
  | [], k, v => [(k, v)]
  | p :: rest, k, v =>
    if p.1 = k then (k, v) :: rest else p :: dictSet rest k v

/-- Python `data.get(k)`: the sample stored under key `k`. -/
def dictGet : HistMap → Str → Option HistSample
  | [], _ => none
  | p :: rest, k => if p.1 = k then some p.2 else dictGet rest k

/-- How many entries of the mapping carry key `k`. -/
def countKey : HistMap → Str → Nat
  | [], _ => 0
  | p :: rest, k => (if p.1 = k then 1 else 0) + countKey rest k

theorem dictGet_dictSet_same (m : HistMap) (k : Str) (v : HistSample) :
    dictGet (dictSet m k v) k = some v := by
  induction m with
  | nil => simp [dictSet, dictGet]
  | cons p rest ih =>
    by_cases hp : p.1 = k
    · simp [dictSet, dictGet, hp]
    · simp only [dictSet, if_neg hp, dictGet, if_neg hp]
      exact ih


theorem dictGet_dictSet_other (m : HistMap) (k k' : Str) (v : HistSample)
    (hne : k' ≠ k) : dictGet (dictSet m k v) k' = dictGet m k' := by
  have hkk : k ≠ k' := fun h => hne h.symm
  induction m with
  | nil => simp [dictSet, dictGet, hkk]
  | cons p rest ih =>
    by_cases hp : p.1 = k
    · have hp' : p.1 ≠ k' := fun h => hne (h ▸ hp)
      simp [dictSet, dictGet, hp, hp', hkk]
    · by_cases hq : p.1 = k'
      · simp [dictSet, dictGet, hp, hq, hne]
      · simp only [dictSet, if_neg hp, dictGet, if_neg hq]
        exact ih

theorem countKey_dictSet_same (m : HistMap) (k : Str) (v : HistSample)
    (hle : countKey m k ≤ 1) : countKey (dictSet m k v) k = 1 := by
  induction m with
  | nil => simp [dictSet, countKey]
  | cons p rest ih =>
    by_cases hp : p.1 = k
    · simp only [countKey, if_pos hp] at hle
      simp [dictSet, countKey, hp]
      omega
    · simp only [countKey, if_neg hp] at hle
      simp only [dictSet, if_neg hp, countKey, if_neg hp]
      rw [ih (by omega)]

theorem countKey_dictSet_other (m : HistMap) (k k' : Str) (v : HistSample)
    (hne : k' ≠ k) : countKey (dictSet m k v) k' = countKey m k' := by
  have hkk : k ≠ k' := fun h => hne h.symm
  induction m with
  | nil => simp [dictSet, countKey, hkk]
  | cons p rest ih =>
    by_cases hp : p.1 = k
    · have hp' : p.1 ≠ k' := fun h => hne (h ▸ hp)
      simp [dictSet, countKey, hp, hp', hkk]
    · simp only [dictSet, if_neg hp, countKey]
      rw [ih]

theorem countKey_eq_zero_of_not_mem (m : HistMap) (k : Str)
    (h : k ∉ m.map Prod.fst) : countKey m k = 0 := by
  induction m with
  | nil => rfl
  | cons p rest ih =>
    rw [List.map_cons, List.mem_cons] at h
    push_neg at h
    simp only [countKey, if_neg (fun hh : p.1 = k => h.1 hh.symm)]
    rw [ih h.2]

theorem countKey_le_one_of_nodup (m : HistMap) (k : Str)
    (hnd : (m.map Prod.fst).Nodup) : countKey m k ≤ 1 := by
  induction m with
  | nil => exact Nat.zero_le 1
  | cons p rest ih =>
    rw [List.map_cons, List.nodup_cons] at hnd
    by_cases hp : p.1 = k
    · simp only [countKey, if_pos hp]
      rw [countKey_eq_zero_of_not_mem rest k (hp ▸ hnd.1)]
    · simp only [countKey, if_neg hp]
      simpa using ih hnd.2

/-! ## Claims -/

/-- **C7**: for every datetime `X` (with a real calendar month),
`last_day_of_next_month X` returns the last calendar day of the month
immediately following `X`'s month, computed as month index `X.month + 2`
wrapped into the following year past 12, first day of that month, minus
one day; the year-wrap cases (November and December inputs) also return
the correct last day of the following month. -/
theorem claim7_last_day_next_month (d : Date) (h1 : 1 ≤ d.month) (h2 : d.month ≤ 12) :
    last_day_of_next_month d = lastDayOfMonthAfter d ∧
    (d.month = 11 → last_day_of_next_month d = ⟨d.year, 12, 31⟩) ∧
    (d.month = 12 → last_day_of_next_month d = ⟨d.year + 1, 1, 31⟩) := by
  refine ⟨last_day_eq_monthAfter d h1 h2, fun h11 => ?_, fun h12 => ?_⟩
  · rw [last_day_eq_monthAfter d h1 h2]
    unfold lastDayOfMonthAfter monthLength
    simp [h11]
  · rw [last_day_eq_monthAfter d h1 h2]
    unfold lastDayOfMonthAfter monthLength
    simp [h12]

theorem claim7_witness :
    (last_day_of_next_month ⟨2025, 12, 3⟩ = lastDayOfMonthAfter ⟨2025, 12, 3⟩ ∧
    ((⟨2025, 12, 3⟩ : Date).month = 11 →
      last_day_of_next_month ⟨2025, 12, 3⟩ = ⟨2025, 12, 31⟩) ∧
    ((⟨2025, 12, 3⟩ : Date).month = 12 →
      last_day_of_next_month ⟨2025, 12, 3⟩ = ⟨2025 + 1, 1, 31⟩)) :=
  claim7_last_day_next_month ⟨2025, 12, 3⟩ (by decide) (by decide)

/-- **C2** (amended): for a pending entry's parsed candidate date (with a
real calendar month) that is strictly earlier than `now` at day
granularity, each advance step strictly increases the date, the loop
terminates, and the final result is the last day of some calendar month
whose calendar day is **on or after** `now`'s calendar day (not
necessarily strictly after it: when `now` is itself the last day of a
reachable month the loop stops exactly on `now`'s day); a candidate on
or after `now`'s day -- including exactly equal -- is returned
unchanged. -/
theorem claim2_corrector (now d : Date) (hv : validMonth d) :
    Date.lt d (last_day_of_next_month d) ∧
    (Date.lt d now → Date.lt d (correct now d) ∧ isLastDayOfMonth (correct now d) ∧
      ¬ Date.lt (correct now d) now) ∧
    (¬ Date.lt d now → correct now d = d) :=
  ⟨lt_last_day d hv.1 hv.2,
   fun hl => ⟨lt_correct_of_lt now d hv hl, correct_isLastDay now d hv hl,
     correct_not_lt_now now d hv⟩,
   fun hnl => correct_of_not_lt now d hnl⟩

theorem claim2_witness :
    (Date.lt ⟨2025, 1, 10⟩ (last_day_of_next_month ⟨2025, 1, 10⟩) ∧
    (Date.lt ⟨2025, 1, 10⟩ ⟨2025, 6, 15⟩ →
      Date.lt ⟨2025, 1, 10⟩ (correct ⟨2025, 6, 15⟩ ⟨2025, 1, 10⟩) ∧
      isLastDayOfMonth (correct ⟨2025, 6, 15⟩ ⟨2025, 1, 10⟩) ∧
      ¬ Date.lt (correct ⟨2025, 6, 15⟩ ⟨2025, 1, 10⟩) ⟨2025, 6, 15⟩) ∧
    (¬ Date.lt ⟨2025, 1, 10⟩ ⟨2025, 6, 15⟩ →
      correct ⟨2025, 6, 15⟩ ⟨2025, 1, 10⟩ = ⟨2025, 1, 10⟩)) :=
  claim2_corrector ⟨2025, 6, 15⟩ ⟨2025, 1, 10⟩ ⟨by decide, by decide⟩

/-- **C2** counterexample to the claim as stated: with
`now = 2025-03-31` (the last day of March) and candidate `2025-01-15`,
the loop stops at `2025-03-31`, which equals `now`'s calendar day -- it
is *not* strictly after `now`. -/
theorem claim2_counterexample :
    Date.lt ⟨2025, 1, 15⟩ ⟨2025, 3, 31⟩ ∧
    correct ⟨2025, 3, 31⟩ ⟨2025, 1, 15⟩ = ⟨2025, 3, 31⟩ ∧
    ¬ Date.lt ⟨2025, 3, 31⟩ (correct ⟨2025, 3, 31⟩ ⟨2025, 1, 15⟩) := by
  refine ⟨by decide, by decide, by decide⟩

/-- **C6**: the history aggregation upserts exactly one sample keyed by
the run's calendar day: running twice on the same day with different
counts leaves exactly one sample for that day, equal to the second run's
counts, and every other day's sample is unchanged. -/
theorem claim6_history_upsert (m : HistMap) (day : Str) (v1 v2 : HistSample)
    (hnd : (m.map Prod.fst).Nodup) :
    dictGet (dictSet (dictSet m day v1) day v2) day = some v2 ∧
    countKey (dictSet (dictSet m day v1) day v2) day = 1 ∧
    ∀ d, d ≠ day → dictGet (dictSet (dictSet m day v1) day v2) d = dictGet m d := by
  refine ⟨dictGet_dictSet_same _ _ _, ?_, fun d hd => ?_⟩
  · apply countKey_dictSet_same
    rw [countKey_dictSet_same m day v1 (countKey_le_one_of_nodup m day hnd)]
  · rw [dictGet_dictSet_other _ _ _ _ hd, dictGet_dictSet_other _ _ _ _ hd]

theorem claim6_witness :
    dictGet (dictSet (dictSet [("2025-01-01".toList, ⟨3, 7⟩)] "2025-01-02".toList ⟨4, 9⟩)
        "2025-01-02".toList ⟨5, 10⟩) "2025-01-02".toList = some ⟨5, 10⟩ ∧
    countKey (dictSet (dictSet [("2025-01-01".toList, ⟨3, 7⟩)] "2025-01-02".toList ⟨4, 9⟩)
        "2025-01-02".toList ⟨5, 10⟩) "2025-01-02".toList = 1 ∧
    ∀ d, d ≠ "2025-01-02".toList →
      dictGet (dictSet (dictSet [("2025-01-01".toList, ⟨3, 7⟩)] "2025-01-02".toList ⟨4, 9⟩)
        "2025-01-02".toList ⟨5, 10⟩) d = dictGet [("2025-01-01".toList, ⟨3, 7⟩)] d :=
  claim6_history_upsert [("2025-01-01".toList, ⟨3, 7⟩)] "2025-01-02".toList ⟨4, 9⟩ ⟨5, 10⟩
    (by simp)

/-- **C8**: the history sample written for the run's day satisfies the
`HistorySample` invariant: both counts are natural numbers and the
pending count is at most the total count, provided the fetched wishlist
details (a dict, so its keys are pairwise distinct) cover only requested
appids. -/
theorem claim8_history_invariant (appids : List Nat) (ws : List (Nat × GameDetails))
    (hnd : (ws.map Prod.fst).Nodup) (hsub : ∀ p ∈ ws, p.1 ∈ appids) :
    (HistSample.mk (prereleaseCount ws) appids.length).prerelease ≤
      (HistSample.mk (prereleaseCount ws) appids.length).total :=
  prereleaseCount_le appids ws hnd hsub

theorem claim8_witness :
    (HistSample.mk
        (prereleaseCount [(10, ⟨"a".toList, "game".toList, "tbd".toList, [], true⟩),
          (20, ⟨"b".toList, "game".toList, "2026".toList, [], false⟩)])
        [10, 20, 30].length).prerelease ≤
      (HistSample.mk
        (prereleaseCount [(10, ⟨"a".toList, "game".toList, "tbd".toList, [], true⟩),
          (20, ⟨"b".toList, "game".toList, "2026".toList, [], false⟩)])
        [10, 20, 30].length).total :=
  claim8_history_invariant [10, 20, 30] _ (by decide) (by decide)

/-- **C4**: an entry that is not pending (`prerelease = false`) and whose
source supplied a concrete machine-readable release timestamp gets the
outcome `resolved` with exactly that timestamp's calendar date,
regardless of the free-form release text (`msg`), under the §4.4 parser
contract that a fully-specified `YYYY-MM-DD` string parses to exactly
that date. -/
theorem claim4_resolved_exact (dp : Str → Option Date) (now : Date)
    (name ty sd msg : Str) (d : Date)
    (hdp : dp (isoFormat d) = some d) :
    processEntry dp now ⟨name, ty, release_string_of (some d) msg, sd, false⟩ =
      .resolved d := by
  simp only [processEntry, release_string_of, lowerChars_isoFormat,
    blockHit_isoFormat, Bool.false_eq_true, if_false, normalize_isoFormat, hdp]

theorem claim4_witness :
    processEntry isoParser ⟨2025, 1, 1⟩
      ⟨"g".toList, "game".toList,
        release_string_of (some ⟨2026, 8, 31⟩) "coming soon".toList,
        [], false⟩ = .resolved ⟨2026, 8, 31⟩ :=
  claim4_resolved_exact isoParser ⟨2025, 1, 1⟩ "g".toList "game".toList []
    "coming soon".toList ⟨2026, 8, 31⟩ (by decide)

/-- **C5**: an entry classifies as blocked exactly when some idiom of the
fixed block list occurs as a substring of the lowercased raw release
text; the check short-circuits (the outcome is then independent of the
parser and of `now`, so no substitution, expansion, parsing or
correction is applied); in particular any raw text containing "tbd"
anywhere is blocked. -/
theorem claim5_blocked_iff (dp dp2 : Str → Option Date) (now now2 : Date)
    (v : GameDetails) :
    (processEntry dp now v = .blocked ↔
      blockHit (lowerChars v.release_string) = true) ∧
    (blockHit (lowerChars v.release_string) = true →
      processEntry dp now v = processEntry dp2 now2 v) ∧
    (∀ x y : Str, v.release_string = x ++ ("tbd".toList ++ y) →
      processEntry dp now v = .blocked) := by
  have hiff : processEntry dp now v = .blocked ↔
      blockHit (lowerChars v.release_string) = true := by
    unfold processEntry
    by_cases h : blockHit (lowerChars v.release_string) = true
    · simp [h]
    · rw [Bool.not_eq_true] at h
      cases hdp : dp (normalizeLowered now (lowerChars v.release_string)) <;>
        simp [h, hdp]
  refine ⟨hiff, fun hb => ?_, fun x y hxy => ?_⟩
  · have h2 : processEntry dp2 now2 v = .blocked := by
      simp [processEntry, hb]
    rw [hiff.mpr hb, h2]
  · apply hiff.mpr
    have hlow : lowerChars v.release_string =
        lowerChars x ++ ("tbd".toList ++ lowerChars y) := by
      rw [hxy]
      unfold lowerChars
      rw [List.map_append, List.map_append]
      rfl
    rw [hlow]
    have hsub : containsSub "tbd".toList
        (lowerChars x ++ ("tbd".toList ++ lowerChars y)) = true :=
      containsSub_append_left _ _ _ (containsSub_self_append _ _ (by decide))
    exact List.any_eq_true.mpr ⟨"tbd".toList, by decide, hsub⟩

theorem claim5_witness :
    (processEntry isoParser ⟨2025, 1, 1⟩
        ⟨"g".toList, "game".toList, "TBD, wishlist now!".toList, [], true⟩ = .blocked ↔
      blockHit (lowerChars "TBD, wishlist now!".toList) = true) ∧
    (blockHit (lowerChars "TBD, wishlist now!".toList) = true →
      processEntry isoParser ⟨2025, 1, 1⟩
        ⟨"g".toList, "game".toList, "TBD, wishlist now!".toList, [], true⟩ =
      processEntry (fun _ => none) ⟨2030, 6, 6⟩
        ⟨"g".toList, "game".toList, "TBD, wishlist now!".toList, [], true⟩) ∧
    (∀ x y : Str, "TBD, wishlist now!".toList = x ++ ("tbd".toList ++ y) →
      processEntry isoParser ⟨2025, 1, 1⟩
        ⟨"g".toList, "game".toList, "TBD, wishlist now!".toList, [], true⟩ = .blocked) :=
  claim5_blocked_iff isoParser (fun _ => none) ⟨2025, 1, 1⟩ ⟨2030, 6, 6⟩
    ⟨"g".toList, "game".toList, "TBD, wishlist now!".toList, [], true⟩

/-- **C9**: a pending entry whose release text does not hit the block
list and does not parse (for instance because it is empty or
unintelligible, with no concrete timestamp supplied) gets the outcome
`unresolved`, and the remaining entries of the batch are still processed
and reported -- processing is a total per-entry map, so no abort
occurs. -/
theorem claim9_unresolved_graceful (dp : Str → Option Date) (now : Date)
    (l1 l2 : List (Nat × GameDetails)) (k : Nat) (v : GameDetails)
    (_hpre : v.prerelease = true)
    (hnb : blockHit (lowerChars v.release_string) = false)
    (hparse : dp (normalizeLowered now (lowerChars v.release_string)) = none) :
    processEntry dp now v = .unresolved ∧
    outcomes dp now (l1 ++ (k, v) :: l2) =
      outcomes dp now l1 ++ .unresolved :: outcomes dp now l2 := by
  have h : processEntry dp now v = .unresolved := by
    simp [processEntry, hnb, hparse]
  refine ⟨h, ?_⟩
  unfold outcomes
  rw [List.map_append, List.map_cons, h]

theorem claim9_witness :
    (processEntry (fun _ => none) ⟨2025, 1, 1⟩
      ⟨"g".toList, "game".toList, [], [], true⟩ = .unresolved) ∧
    outcomes (fun _ => none) ⟨2025, 1, 1⟩
      ([(1, ⟨"a".toList, "game".toList, "tbd".toList, [], true⟩)] ++
        (2, ⟨"g".toList, "game".toList, [], [], true⟩) ::
        [(3, ⟨"b".toList, "game".toList, "soon?".toList, [], false⟩)]) =
      outcomes (fun _ => none) ⟨2025, 1, 1⟩
        [(1, ⟨"a".toList, "game".toList, "tbd".toList, [], true⟩)] ++
      .unresolved ::
      outcomes (fun _ => none) ⟨2025, 1, 1⟩
        [(3, ⟨"b".toList, "game".toList, "soon?".toList, [], false⟩)] :=
  claim9_unresolved_graceful (fun _ => none) ⟨2025, 1, 1⟩
    [(1, ⟨"a".toList, "game".toList, "tbd".toList, [], true⟩)]
    [(3, ⟨"b".toList, "game".toList, "soon?".toList, [], false⟩)] 2
    ⟨"g".toList, "game".toList, [], [], true⟩ rfl (by decide) rfl

/-- **C10**: a pending (prerelease) entry whose release text hits the
block list is still counted in the run's pending count -- the counter is
incremented before the block-list short-circuit -- while the entry
produces no successful-deduction report line and no calendar event. -/
theorem claim10_blocked_counted (dp : Str → Option Date) (now : Date)
    (includeDlc : Bool) (ws : List (Nat × GameDetails)) (k : Nat) (v : GameDetails)
    (hpre : v.prerelease = true)
    (hb : blockHit (lowerChars v.release_string) = true) :
    prereleaseCount (ws ++ [(k, v)]) = prereleaseCount ws + 1 ∧
    processEntry dp now v = .blocked ∧
    successes dp now (ws ++ [(k, v)]) = successes dp now ws ∧
    events dp now includeDlc (ws ++ [(k, v)]) = events dp now includeDlc ws := by
  have hblk : processEntry dp now v = .blocked := by
    simp [processEntry, hb]
  refine ⟨?_, hblk, ?_, ?_⟩
  · simp [prereleaseCount, List.filter_append, hpre]
  · simp [successes, List.filterMap_append, hblk]
  · simp [events, List.filterMap_append, hblk]

theorem claim10_witness :
    prereleaseCount ([(7, ⟨"a".toList, "game".toList, "2026-05-01".toList, [], true⟩)] ++
      [(8, ⟨"g".toList, "game".toList, "Coming soon!".toList, [], true⟩)]) =
      prereleaseCount [(7, ⟨"a".toList, "game".toList, "2026-05-01".toList, [], true⟩)] + 1 ∧
    processEntry isoParser ⟨2025, 1, 1⟩
      ⟨"g".toList, "game".toList, "Coming soon!".toList, [], true⟩ = .blocked ∧
    successes isoParser ⟨2025, 1, 1⟩
      ([(7, ⟨"a".toList, "game".toList, "2026-05-01".toList, [], true⟩)] ++
        [(8, ⟨"g".toList, "game".toList, "Coming soon!".toList, [], true⟩)]) =
      successes isoParser ⟨2025, 1, 1⟩
        [(7, ⟨"a".toList, "game".toList, "2026-05-01".toList, [], true⟩)] ∧
    events isoParser ⟨2025, 1, 1⟩ false
      ([(7, ⟨"a".toList, "game".toList, "2026-05-01".toList, [], true⟩)] ++
        [(8, ⟨"g".toList, "game".toList, "Coming soon!".toList, [], true⟩)]) =
      events isoParser ⟨2025, 1, 1⟩ false
        [(7, ⟨"a".toList, "game".toList, "2026-05-01".toList, [], true⟩)] :=
  claim10_blocked_counted isoParser ⟨2025, 1, 1⟩ false
    [(7, ⟨"a".toList, "game".toList, "2026-05-01".toList, [], true⟩)] 8
    ⟨"g".toList, "game".toList, "Coming soon!".toList, [], true⟩ rfl (by decide)

/-- **C1** counterexample to the claim as stated: the raw text
`"2023 年"` normalizes through the substitution stage to `"2023 ."`,
matches the bare-year regex, and (with `now = 2025-03-01`, past the
sentinel `2023-09-15`) expands to `"2023-12-31"`; the parsed date
`2023-12-31` is strictly earlier than `now`, and the correction loop
**does** advance it -- the pending entry resolves to `2025-03-31`, not
to the expanded date `2023-12-31`. -/
theorem claim1_counterexample :
    yearOnlyMatch (stripChars (applySubs (lowerChars "2023 年".toList))) =
      some "2023".toList ∧
    isoParser (normalizeLowered ⟨2025, 3, 1⟩ (lowerChars "2023 年".toList)) =
      some ⟨2023, 12, 31⟩ ∧
    Date.lt ⟨2023, 12, 31⟩ ⟨2025, 3, 1⟩ ∧
    processEntry isoParser ⟨2025, 3, 1⟩
      ⟨"g".toList, "game".toList, "2023 年".toList, [], true⟩ =
      .resolved ⟨2025, 3, 31⟩ ∧
    Outcome.resolved (⟨2025, 3, 31⟩ : Date) ≠ .resolved ⟨2023, 12, 31⟩ := by
  refine ⟨by decide, by decide, by decide, by decide, by decide⟩

/-- **C1** (amended): the future-date correction loop treats a pending
entry's parsed date produced by the bare-year expansion like any other
date: when that date is strictly earlier than `now` it **is** advanced
further -- strictly past its expanded value, to a day on or after
`now`'s calendar day.  (The expansion's future-leaning choice only makes
the loop a no-op when the chosen date is itself not earlier than
`now`.) -/
theorem claim1_bare_year_advanced (dp : Str → Option Date) (now : Date)
    (v : GameDetails) (ys : Str) (d : Date)
    (hpre : v.prerelease = true)
    (hnb : blockHit (lowerChars v.release_string) = false)
    (_hyo : yearOnlyMatch (stripChars (applySubs (lowerChars v.release_string))) = some ys)
    (hparse : dp (normalizeLowered now (lowerChars v.release_string)) = some d)
    (hv : validMonth d) (hlt : Date.lt d now) :
    processEntry dp now v = .resolved (correct now d) ∧
    Date.lt d (correct now d) ∧ ¬ Date.lt (correct now d) now := by
  have h : processEntry dp now v = .resolved (correct now d) := by
    simp [processEntry, hnb, hparse, hpre]
  exact ⟨h, lt_correct_of_lt now d hv hlt, correct_not_lt_now now d hv⟩

theorem claim1_witness :
    (processEntry isoParser ⟨2025, 3, 1⟩
      ⟨"g".toList, "game".toList, "2023 年".toList, [], true⟩ =
      .resolved (correct ⟨2025, 3, 1⟩ ⟨2023, 12, 31⟩)) ∧
    Date.lt ⟨2023, 12, 31⟩ (correct ⟨2025, 3, 1⟩ ⟨2023, 12, 31⟩) ∧
    ¬ Date.lt (correct ⟨2025, 3, 1⟩ ⟨2023, 12, 31⟩) ⟨2025, 3, 1⟩ :=
  claim1_bare_year_advanced isoParser ⟨2025, 3, 1⟩
    ⟨"g".toList, "game".toList, "2023 年".toList, [], true⟩
    "2023".toList ⟨2023, 12, 31⟩ rfl (by decide) (by decide) (by decide)
    ⟨by decide, by decide⟩ (by decide)

/-- **C3** counterexample to the claim as stated: the normalized string
`"2023"` *is* "four digits, nothing else" (with the claim's "stray
formatting" absent, as the claim permits), yet the bare-year resolver
does not expand it at all -- the regex `^(\d{4}) \.$` demands the
trailing space-and-period -- so with `now = 2023-01-01` the output is
`"2023"`, not the claimed `"2023-09-15"`. -/
theorem claim3_counterexample :
    yearOnlyMatch "2023".toList = none ∧
    normalizeLowered ⟨2023, 1, 1⟩ (lowerChars "2023".toList) = "2023".toList ∧
    "2023".toList ≠ "2023".toList ++ "-09-15".toList := by
  refine ⟨by decide, by decide, by decide⟩

/-- **C3** (amended): the bare-year resolver fires exactly on normalized
strings of the shape four digits followed by the **mandatory** residue
`" ."` of the substitution stage; with `Y` the four-digit year it
produces `Y-09-15` when September 15 of year `Y` is strictly after
`now`, and `Y-12-31` otherwise; in particular with `now = Y-01-01` the
output denotes `Y-09-15`, and with `now = Y-10-01` it denotes
`Y-12-31`. -/
theorem claim3_bare_year (now : Date) (a b c d : Char)
    (ha : a.isDigit = true) (hb : b.isDigit = true)
    (hc : c.isDigit = true) (hd : d.isDigit = true) :
    bareYearExpand now ([a, b, c, d] ++ [' ', '.']) =
      (if Date.lt now ⟨yearVal [a, b, c, d], 9, 15⟩ then
        [a, b, c, d] ++ "-09-15".toList
      else [a, b, c, d] ++ "-12-31".toList) ∧
    (now = ⟨yearVal [a, b, c, d], 1, 1⟩ →
      bareYearExpand now ([a, b, c, d] ++ [' ', '.']) =
        [a, b, c, d] ++ "-09-15".toList) ∧
    (now = ⟨yearVal [a, b, c, d], 10, 1⟩ →
      bareYearExpand now ([a, b, c, d] ++ [' ', '.']) =
        [a, b, c, d] ++ "-12-31".toList) := by
  have hmatch : yearOnlyMatch ([a, b, c, d] ++ [' ', '.']) = some [a, b, c, d] := by
    show yearOnlyMatch [a, b, c, d, ' ', '.'] = some [a, b, c, d]
    unfold yearOnlyMatch
    simp [ha, hb, hc, hd]
  refine ⟨?_, fun hn => ?_, fun hn => ?_⟩
  · unfold bareYearExpand
    rw [hmatch]
  · unfold bareYearExpand
    rw [hmatch]
    show (if Date.lt now ⟨yearVal [a, b, c, d], 9, 15⟩ then
        [a, b, c, d] ++ "-09-15".toList
      else [a, b, c, d] ++ "-12-31".toList) = [a, b, c, d] ++ "-09-15".toList
    rw [if_pos]
    subst hn
    unfold Date.lt
    dsimp only
    omega
  · unfold bareYearExpand
    rw [hmatch]
    show (if Date.lt now ⟨yearVal [a, b, c, d], 9, 15⟩ then
        [a, b, c, d] ++ "-09-15".toList
      else [a, b, c, d] ++ "-12-31".toList) = [a, b, c, d] ++ "-12-31".toList
    rw [if_neg]
    subst hn
    unfold Date.lt
    dsimp only
    omega

theorem claim3_witness :
    (bareYearExpand ⟨2026, 1, 1⟩ (['2', '0', '2', '6'] ++ [' ', '.']) =
      (if Date.lt ⟨2026, 1, 1⟩ ⟨yearVal ['2', '0', '2', '6'], 9, 15⟩ then
        ['2', '0', '2', '6'] ++ "-09-15".toList
      else ['2', '0', '2', '6'] ++ "-12-31".toList)) ∧
    ((⟨2026, 1, 1⟩ : Date) = ⟨yearVal ['2', '0', '2', '6'], 1, 1⟩ →
      bareYearExpand ⟨2026, 1, 1⟩ (['2', '0', '2', '6'] ++ [' ', '.']) =
        ['2', '0', '2', '6'] ++ "-09-15".toList) ∧
    ((⟨2026, 1, 1⟩ : Date) = ⟨yearVal ['2', '0', '2', '6'], 10, 1⟩ →
      bareYearExpand ⟨2026, 1, 1⟩ (['2', '0', '2', '6'] ++ [' ', '.']) =
        ['2', '0', '2', '6'] ++ "-12-31".toList) :=
  claim3_bare_year ⟨2026, 1, 1⟩ '2' '0' '2' '6' (by decide) (by decide)
    (by decide) (by decide)

end SWC
